import Mathlib

/- Shallow embedding of the Rainbow DQN learning core in
src/Rainbow_DQN/plot_results.py.  Machine floating point is modelled
exactly: rationals for the bookkeeping arithmetic, reals where the code
takes real powers (priority ** alpha, weight ** -beta) or square roots.
Randomness (RNG draws, sampled indices) is passed in as explicit
arguments.  The segment_tree module is imported by the source but absent
from src/, so the two trees are modelled from the spec (sections 3 and
4.1): a leaf array whose reductions equal the operator folded over the
leaves, with identity 0 for sum and plus-infinity for min. -/

/-- One transition row `(obs, act, rew, next_obs, done)` as handled by
`ReplayBuffer.store` (source lines 48-77). -/
structure Transition (α : Type) where
  obs : α
  act : ℚ
  rew : ℚ
  nextObs : α
  done : Bool
deriving DecidableEq

instance (α : Type) [Inhabited α] : Inhabited (Transition α) :=
  ⟨⟨default, 0, 0, default, false⟩⟩

/-- One iteration of the loop body of `ReplayBuffer._get_n_step_info`
(source lines 111-115): `rew = r + gamma * rew * (1 - d)` followed by
`next_obs, done = (n_o, d) if d else (next_obs, done)`. -/
def nStepFold {α : Type} (γ : ℚ) (acc : ℚ × α × Bool) (tr : Transition α) : ℚ × α × Bool :=
  (tr.rew + γ * acc.1 * (if tr.done then 0 else 1),
   if tr.done then tr.nextObs else acc.2.1,
   if tr.done then tr.done else acc.2.2)

/-- `ReplayBuffer._get_n_step_info` (source lines 104-117): start from the
newest transition of the window and fold the remaining ones from the
second-newest down to the oldest (`reversed(list(n_step_buffer)[:-1])`).
Returns `none` on an empty window (the IndexError case, never reached by
the callers). -/
def getNStepInfo {α : Type} (l : List (Transition α)) (γ : ℚ) : Option (ℚ × α × Bool) :=
  match l.reverse with
  | [] => none
  | last :: rest => some (rest.foldl (nStepFold γ) (last.rew, last.nextObs, last.done))

/-- Index of the first `done = true` transition scanning forward from the
oldest entry of the window (`l.length` when there is none). -/
def firstDoneIdx {α : Type} (l : List (Transition α)) : ℕ :=
  l.findIdx (fun tr => tr.done)

/-- Index at which the n-step return is truncated: the first terminal
transition in chronological order, or the newest entry when the window
holds no terminal transition. -/
def truncIdx {α : Type} (l : List (Transition α)) : ℕ :=
  min (firstDoneIdx l) (l.length - 1)

/-- Folded n-step reward as the spec writes it, with the truncation point
taken at the first terminal transition in chronological order. -/
def foldedRewardSpec {α : Type} [Inhabited α] (l : List (Transition α)) (γ : ℚ) : ℚ :=
  ∑ k in Finset.range (truncIdx l + 1), γ ^ k * (l.getD k default).rew

/-- Bootstrap observation as the spec writes it: taken from the first
terminal transition in chronological order when one exists, else from the
newest transition. -/
def bootstrapObsSpec {α : Type} [Inhabited α] (l : List (Transition α)) : α :=
  (l.getD (truncIdx l) default).nextObs

/-- Index of the first `done = true` transition encountered when scanning
backward from the newest entry, i.e. the largest index carrying
`done = true` (the newest entry when no terminal transition exists).
This is the claim's literal reading of the truncation point. -/
def backwardDoneIdx {α : Type} (l : List (Transition α)) : ℕ :=
  if l.any (fun tr => tr.done) then
    l.length - 1 - l.reverse.findIdx (fun tr => tr.done)
  else l.length - 1

/-- Folded result predicted by the claim's literal reading: reward
truncated at the first terminal found scanning backward from the newest
entry, bootstrap taken from that transition. -/
def backwardFoldSpec {α : Type} [Inhabited α] (l : List (Transition α)) (γ : ℚ) :
    ℚ × α × Bool :=
  (∑ k in Finset.range (backwardDoneIdx l + 1), γ ^ k * (l.getD k default).rew,
   (l.getD (backwardDoneIdx l) default).nextObs,
   l.any (fun tr => tr.done))

/-- Three-transition window with terminal flags on the middle and the
newest entry; exercises the truncation direction of the n-step fold. -/
def twoDoneWindow : List (Transition ℚ) :=
  [⟨0, 0, 0, 1, false⟩, ⟨1, 0, 5, 11, true⟩, ⟨11, 0, 7, 12, true⟩]

/-- Three-transition window with no terminal flag and rewards 1, 2, 4;
the spec's own n-step folding example shape. -/
def plainWindow : List (Transition ℚ) :=
  [⟨0, 0, 1, 10, false⟩, ⟨10, 1, 2, 20, false⟩, ⟨20, 0, 4, 40, false⟩]

/-- Fixed support parameters of the categorical (C51) head: `v_min`,
`v_max` and the atom count (source lines 480-486). -/
structure CatCfg where
  vMin : ℚ
  vMax : ℚ
  atomSize : ℕ

/-- Atom spacing `delta_z = (v_max - v_min) / (atom_size - 1)` (source
line 671). -/
def deltaZ (c : CatCfg) : ℚ :=
  (c.vMax - c.vMin) / ((c.atomSize : ℚ) - 1)

/-- Support atom `j` of `torch.linspace(v_min, v_max, atom_size)`. -/
def supportAtom (c : CatCfg) (j : ℕ) : ℚ :=
  c.vMin + (j : ℚ) * deltaZ c

/-- Backed-up atom value `t_z = clamp(reward + (1 - done) * gamma * z_j,
v_min, v_max)` (source lines 679-680), for one batch row. -/
def tZ (c : CatCfg) (γ reward dn : ℚ) (j : ℕ) : ℚ :=
  max c.vMin (min c.vMax (reward + (1 - dn) * γ * supportAtom c j))

/-- Fractional projection index `b = (t_z - v_min) / delta_z` (source
line 681). -/
def bFrac (c : CatCfg) (γ reward dn : ℚ) (j : ℕ) : ℚ :=
  (tZ c γ reward dn j - c.vMin) / deltaZ c

/-- Floor index `l = b.floor()` (source line 682). -/
def lIdx (c : CatCfg) (γ reward dn : ℚ) (j : ℕ) : ℤ :=
  ⌊bFrac c γ reward dn j⌋

/-- Ceil index `u = b.ceil()` (source line 683). -/
def uIdx (c : CatCfg) (γ reward dn : ℚ) (j : ℕ) : ℤ :=
  ⌈bFrac c γ reward dn j⌉

/-- Projected target distribution of one batch row of
`DQNAgent._compute_dqn_loss` (source lines 694-700): the two `index_add_`
calls deposit `next_dist[j] * (u - b)` at index `l` and
`next_dist[j] * (b - l)` at index `u`. -/
def projDist (c : CatCfg) (γ reward dn : ℚ) (nextDist : ℕ → ℚ) (i : ℕ) : ℚ :=
  ∑ j in Finset.range c.atomSize,
    ((if lIdx c γ reward dn j = (i : ℤ) then
        nextDist j * (((uIdx c γ reward dn j : ℚ)) - bFrac c γ reward dn j) else 0) +
     (if uIdx c γ reward dn j = (i : ℤ) then
        nextDist j * (bFrac c γ reward dn j - ((lIdx c γ reward dn j : ℚ))) else 0))

/-- Uniform next-state distribution over two atoms; sums to 1. -/
def halfDist : ℕ → ℚ := fun _ => 1 / 2

/-- Interior next-state distribution example placing all mass on atom 1. -/
def atomOneDist : ℕ → ℚ := fun j => if j = 1 then 1 else 0

/-- `ReplayBuffer` state (source lines 24-46): the parallel numpy arrays
(`obs_buf`, `next_obs_buf`, `acts_buf`, `rews_buf`, `done_buf`) are
combined into one list of rows, plus the write cursor, the size, and the
n-step deque with its parameters. -/
structure RB (α : Type) where
  data : List (Transition α)
  maxSize : ℕ
  batchSize : ℕ
  ptr : ℕ
  size : ℕ
  nStepBuffer : List (Transition α)
  nStep : ℕ
  gamma : ℚ

/-- `ReplayBuffer.__init__` (source lines 27-46): zeroed arrays, cursor
and size 0, empty deque; `d` is the zero observation. -/
def mkRB {α : Type} (d : α) (maxSize batchSize nStep : ℕ) (γ : ℚ) : RB α :=
  { data := List.replicate maxSize ⟨d, 0, 0, d, false⟩
    maxSize := maxSize
    batchSize := batchSize
    ptr := 0
    size := 0
    nStepBuffer := []
    nStep := nStep
    gamma := γ }

/-- Appending to `deque(maxlen = n)`: the oldest entries are evicted from
the left once the window exceeds `n` (source line 57). -/
def pushWindow {α : Type} (w : List (Transition α)) (n : ℕ) (t : Transition α) :
    List (Transition α) :=
  if n < (w ++ [t]).length then (w ++ [t]).drop ((w ++ [t]).length - n) else w ++ [t]

/-- The folded n-step row assembled by `ReplayBuffer.store` (source lines
63-73): reward, bootstrap observation and done from `_get_n_step_info`,
observation and action from the oldest window entry. -/
def foldedRow {α : Type} (w : List (Transition α)) (γ : ℚ) : Option (Transition α) :=
  match w, getNStepInfo w γ with
  | h :: _, some (rew, nextObs, dn) => some ⟨h.obs, h.act, rew, nextObs, dn⟩
  | _, _ => none

/-- Row written into the arrays by one `ReplayBuffer.store` call, `none`
when the window is not yet full (source lines 59-61). -/
def rbStoreWritten {α : Type} (s : RB α) (t : Transition α) : Option (Transition α) :=
  if (pushWindow s.nStepBuffer s.nStep t).length < s.nStep then none
  else foldedRow (pushWindow s.nStepBuffer s.nStep t) s.gamma

/-- `ReplayBuffer.store` (source lines 48-77): append to the deque; if the
window is full, write the folded row at the cursor, advance the cursor
modulo capacity, bump the size, and return the oldest raw window entry
(`self.n_step_buffer[0]`). -/
def rbStore {α : Type} (s : RB α) (t : Transition α) : RB α × Option (Transition α) :=
  match rbStoreWritten s t, pushWindow s.nStepBuffer s.nStep t with
  | some f, h1 :: _ =>
      ({ s with
          nStepBuffer := pushWindow s.nStepBuffer s.nStep t
          data := s.data.set s.ptr f
          ptr := (s.ptr + 1) % s.maxSize
          size := min (s.size + 1) s.maxSize }, some h1)
  | _, _ => ({ s with nStepBuffer := pushWindow s.nStepBuffer s.nStep t }, none)

/-- Repeatedly feed raw transitions through `store`, collecting the folded
rows that were actually written, in insertion order. -/
def storeManyW {α : Type} : RB α → List (Transition α) → RB α × List (Transition α)
  | s, [] => (s, [])
  | s, t :: ts =>
      ((storeManyW (rbStore s t).1 ts).1,
       (rbStoreWritten s t).toList ++ (storeManyW (rbStore s t).1 ts).2)

/-- Sequential ring writes: write the given rows one after another
starting at cursor `p`, wrapping modulo the array length. -/
def ringWrite {β : Type} : List β → ℕ → List β → List β
  | d, _, [] => d
  | d, p, w :: ws => ringWrite (d.set p w) ((p + 1) % d.length) ws

/-- Offset (relative to the starting cursor) of the last ring write that
lands on slot `j`, among `k` consecutive writes modulo `L`. -/
def lastHit (p L j : ℕ) : ℕ → Option ℕ
  | 0 => none
  | k + 1 =>
      match lastHit ((p + 1) % L) L j k with
      | some i => some (i + 1)
      | none => if p = j then some 0 else none

/-- Raw transitions with rewards 1, 2, 4 fed to a capacity-2 buffer with
`n_step = 1`; the third insertion wraps around and overwrites slot 0. -/
def c5Raws : List (Transition ℚ) :=
  [⟨0, 0, 1, 1, false⟩, ⟨1, 0, 2, 2, false⟩, ⟨2, 0, 4, 3, false⟩]

/-- Modelled from the spec: the `segment_tree` module is imported by the
source but absent from src/.  Spec section 4.1 fixes the tree capacity as
the smallest power of two at least the buffer capacity (the source's
`__init__`, lines 153-158, computes it by doubling from 1). -/
def treeCap (m : ℕ) : ℕ := 2 ^ Nat.clog 2 m

/-- Modelled from the spec: the reduction operator of the min segment
tree, with `none` playing the plus-infinity identity that spec section 3
assigns to unused leaves. -/
def optMin (x y : Option ℝ) : Option ℝ :=
  match x, y with
  | none, b => b
  | a, none => a
  | some a, some b => some (min a b)

/-- `PrioritizedReplayBuffer` state (source lines 123-159): the underlying
`ReplayBuffer` plus `max_priority`, `tree_ptr`, `alpha`, and the leaf
arrays of the two segment trees (modelled from the spec, which demands
that every reduction equal the operator folded over the leaves). -/
structure PRB (α : Type) extends RB α where
  maxPriority : ℚ
  treePtr : ℕ
  alpha : ℚ
  sumTree : List ℝ
  minTree : List (Option ℝ)

/-- `PrioritizedReplayBuffer.__init__` (source lines 135-159): asserts
`alpha >= 0`, then sets `max_priority = 1.0`, `tree_ptr = 0` and two
fresh trees of the power-of-two capacity.  `none` models the assertion
failure. -/
def mkPRB {α : Type} (d : α) (maxSize batchSize : ℕ) (alpha : ℚ) (nStep : ℕ)
    (γ : ℚ) : Option (PRB α) :=
  if 0 ≤ alpha then
    some { toRB := mkRB d maxSize batchSize nStep γ
           maxPriority := 1
           treePtr := 0
           alpha := alpha
           sumTree := List.replicate (treeCap maxSize) 0
           minTree := List.replicate (treeCap maxSize) none }
  else none

/-- `PrioritizedReplayBuffer.store` (source lines 161-177): delegate to
`ReplayBuffer.store`; when a transition was produced, write
`max_priority ** alpha` at `tree_ptr` into both trees and advance
`tree_ptr` modulo the buffer capacity. -/
noncomputable def prbStore {α : Type} (s : PRB α) (t : Transition α) :
    PRB α × Option (Transition α) :=
  match rbStore s.toRB t with
  | (rb1, none) => ({ s with toRB := rb1 }, none)
  | (rb1, some h1) =>
      ({ s with
          toRB := rb1
          sumTree := s.sumTree.set s.treePtr ((s.maxPriority : ℝ) ^ (s.alpha : ℝ))
          minTree := s.minTree.set s.treePtr (some ((s.maxPriority : ℝ) ^ (s.alpha : ℝ)))
          treePtr := (s.treePtr + 1) % s.toRB.maxSize }, some h1)

/-- Iterated `PrioritizedReplayBuffer.store`. -/
noncomputable def prbStoreMany {α : Type} (s : PRB α) (ts : List (Transition α)) :
    PRB α :=
  ts.foldl (fun s2 t => (prbStore s2 t).1) s

/-- Loop body of `PrioritizedReplayBuffer.update_priorities` (source lines
207-214): for each pair, assert `priority > 0` and `0 <= idx < len(self)`,
set both trees' leaves to `priority ** alpha`, and raise `max_priority`.
`none` models an assertion failure. -/
noncomputable def upAux {α : Type} : PRB α → List (ℕ × ℚ) → Option (PRB α)
  | s, [] => some s
  | s, (idx, p) :: rest =>
      if 0 < p ∧ idx < s.size then
        upAux { s with
                 sumTree := s.sumTree.set idx ((p : ℝ) ^ (s.alpha : ℝ))
                 minTree := s.minTree.set idx (some ((p : ℝ) ^ (s.alpha : ℝ)))
                 maxPriority := max s.maxPriority p } rest
      else none

/-- `PrioritizedReplayBuffer.update_priorities` (source lines 203-214):
asserts the index and priority batches have equal length, then updates
pairwise. -/
noncomputable def updatePriorities {α : Type} (s : PRB α) (indices : List ℕ)
    (priorities : List ℚ) : Option (PRB α) :=
  if indices.length = priorities.length then upAux s (indices.zip priorities)
  else none

/-- Modelled from the spec: `min_tree.min()` reduces the min operator over
every leaf of the tree. -/
def treeMin {α : Type} (s : PRB α) : Option ℝ :=
  s.minTree.foldr optMin none

/-- Modelled from the spec: `sum_tree.sum()` reduces the sum operator over
every leaf of the tree (identity 0 in unused leaves). -/
def treeSum {α : Type} (s : PRB α) : ℝ :=
  s.sumTree.sum

/-- `PrioritizedReplayBuffer._calculate_weight` (source lines 231-242):
`p_min = min_tree.min() / sum_tree.sum()`,
`max_weight = (p_min * N) ** (-beta)`,
`p_sample = sum_tree[idx] / sum_tree.sum()`, and the returned weight is
`((p_sample * N) ** (-beta)) / max_weight`.  `none` models the
unreachable state in which every min-tree leaf still holds the
plus-infinity identity. -/
noncomputable def calculateWeight {α : Type} (s : PRB α) (idx : ℕ) (β : ℚ) :
    Option ℝ :=
  match treeMin s with
  | none => none
  | some mn =>
      some ((((s.sumTree.getD idx 0 / treeSum s) * (s.size : ℝ)) ^ (-(β : ℝ))) /
        (((mn / treeSum s) * (s.size : ℝ)) ^ (-(β : ℝ))))

/-- The weight list built by `sample_batch` (source line 191): one
`_calculate_weight` call per sampled index. -/
noncomputable def collectWeights {α : Type} (s : PRB α) (β : ℚ) :
    List ℕ → Option (List ℝ)
  | [] => some []
  | i :: is =>
      match calculateWeight s i β, collectWeights s β is with
      | some w, some ws => some (w :: ws)
      | _, _ => none

/-- `PrioritizedReplayBuffer.sample_batch` (source lines 179-201): asserts
`len(self) >= batch_size` and `beta > 0`, then gathers the sampled rows,
their importance weights and the indices.  The stratified proportional
draw (`_sample_proportional`) is the randomness source and is abstracted
into the `indices` argument. -/
noncomputable def sampleBatch {α : Type} [Inhabited α] (s : PRB α) (β : ℚ)
    (indices : List ℕ) : Option (List (Transition α) × List ℝ × List ℕ) :=
  if s.batchSize ≤ s.size ∧ 0 < β then
    match collectWeights s β indices with
    | some ws => some (indices.map (fun i => s.data.getD i default), ws, indices)
    | none => none
  else none

/-- The two replay memories owned by `DQNAgent` when n-step learning is
enabled (source lines 464-478). -/
structure AgentMem (α : Type) where
  memory : PRB α
  memoryN : RB α

/-- Construction of the two buffers in `DQNAgent.__init__` (source lines
464-478): `memory` is a `PrioritizedReplayBuffer` built with the default
`n_step = 1` and default `gamma = 0.99`; `memory_n` is a plain
`ReplayBuffer` with the agent's `n_step` and `gamma`. -/
def agentInit {α : Type} (d : α) (memorySize batchSize : ℕ) (alpha γ : ℚ)
    (nStep : ℕ) : Option (AgentMem α) :=
  (mkPRB d memorySize batchSize alpha 1 (99/100)).map fun m =>
    { memory := m, memoryN := mkRB d memorySize batchSize nStep γ }

/-- Storage path of `DQNAgent.step` with n-step learning enabled (source
lines 524-536): the raw transition goes through `memory_n.store`; when a
(one-step) transition comes back, it is stored into the prioritized
`memory`. -/
noncomputable def agentStoreStep {α : Type} (A : AgentMem α) (t : Transition α) :
    AgentMem α :=
  match rbStore A.memoryN t with
  | (mN, none) => { A with memoryN := mN }
  | (mN, some h1) => { memory := (prbStore A.memory h1).1, memoryN := mN }

/-- Iterated `agentStoreStep` over a list of raw transitions. -/
noncomputable def storeSteps {α : Type} (A : AgentMem α) (ts : List (Transition α)) :
    AgentMem α :=
  ts.foldl agentStoreStep A

/-- Per-frame beta update of `DQNAgent.train` (source lines 603-605):
`fraction = min(frame_idx / num_frames, 1.0)` and
`beta = beta + fraction * (1.0 - beta)`. -/
def betaStep (numFrames frameIdx : ℕ) (b : ℚ) : ℚ :=
  b + min ((frameIdx : ℚ) / (numFrames : ℚ)) 1 * (1 - b)

/-- Beta after the first `t` frames of `DQNAgent.train`. -/
def betaAt (numFrames : ℕ) (b0 : ℚ) : ℕ → ℚ
  | 0 => b0
  | t + 1 => betaStep numFrames (t + 1) (betaAt numFrames b0 t)

/-- The linear annealing schedule the claim describes:
`beta_t = beta_0 + (t / N) * (1 - beta_0)`, capped at the horizon. -/
def linearBeta (numFrames : ℕ) (b0 : ℚ) (t : ℕ) : ℚ :=
  b0 + min ((t : ℚ) / (numFrames : ℚ)) 1 * (1 - b0)

/-- `NoisyLinear` learned parameters and noise buffers (source lines
245-284), with the weight matrices as functions of output and input
index. -/
structure NoisyLinear (nIn nOut : ℕ) where
  weightMu : Fin nOut → Fin nIn → ℝ
  weightSigma : Fin nOut → Fin nIn → ℝ
  weightEpsilon : Fin nOut → Fin nIn → ℝ
  biasMu : Fin nOut → ℝ
  biasSigma : Fin nOut → ℝ
  biasEpsilon : Fin nOut → ℝ

/-- `NoisyLinear.scale_noise` applied to one coordinate (source lines
322-327): `x.sign().mul(x.abs().sqrt())`. -/
noncomputable def scaleNoise (x : ℝ) : ℝ :=
  Real.sign x * Real.sqrt |x|

/-- `NoisyLinear.reset_noise` (source lines 301-308): transform the two
raw standard-normal draws (passed in as arguments) with `scale_noise`,
then set the weight-noise buffer to the outer product
`epsilon_out.ger(epsilon_in)` and the bias-noise buffer to the
transformed `epsilon_out`. -/
noncomputable def resetNoise {nIn nOut : ℕ} (L : NoisyLinear nIn nOut)
    (rawIn : Fin nIn → ℝ) (rawOut : Fin nOut → ℝ) : NoisyLinear nIn nOut :=
  { L with
      weightEpsilon := fun o i => scaleNoise (rawOut o) * scaleNoise (rawIn i)
      biasEpsilon := fun o => scaleNoise (rawOut o) }

/-- `NoisyLinear.forward` (source lines 310-320) on one input vector:
`F.linear(x, weight_mu + weight_sigma * weight_epsilon,
bias_mu + bias_sigma * bias_epsilon)`.  There is no train/eval branch:
the noise buffers enter on every call. -/
noncomputable def nlForward {nIn nOut : ℕ} (L : NoisyLinear nIn nOut)
    (x : Fin nIn → ℝ) : Fin nOut → ℝ :=
  fun o =>
    (∑ i, (L.weightMu o i + L.weightSigma o i * L.weightEpsilon o i) * x i) +
      (L.biasMu o + L.biasSigma o * L.biasEpsilon o)

/-- Factorized-noise transform exactly as the claim writes it:
`f(x) = sign(x) * sqrt(abs(x))`. -/
noncomputable def specNoiseF (x : ℝ) : ℝ := Real.sign x * Real.sqrt |x|

/-- Forward map exactly as the claim writes it: the matrix-vector product
`x * (weight_mu + weight_sigma * weight_epsilon)^T` plus the perturbed
bias. -/
noncomputable def specForward {nIn nOut : ℕ} (L : NoisyLinear nIn nOut)
    (x : Fin nIn → ℝ) : Fin nOut → ℝ :=
  (Matrix.of fun o i =>
      L.weightMu o i + L.weightSigma o i * L.weightEpsilon o i).mulVec x
    + fun o => L.biasMu o + L.biasSigma o * L.biasEpsilon o

/-- Concrete prioritized-buffer state: capacity 4, three stored rows,
priorities 1, 2, 1 in both trees, `alpha = 1`, `max_priority = 1`. -/
noncomputable def examplePRB : PRB ℚ :=
  { data := List.replicate 4 ⟨0, 0, 0, 0, false⟩
    maxSize := 4
    batchSize := 2
    ptr := 3
    size := 3
    nStepBuffer := []
    nStep := 1
    gamma := 99 / 100
    maxPriority := 1
    treePtr := 3
    alpha := 1
    sumTree := [1, 2, 1, 0]
    minTree := [some 1, some 2, some 1, none] }

/-- The state after the claim's example call
`update_priorities([0, 1, 2], [0.5, 3.0, 1.0])` on `examplePRB`. -/
noncomputable def exampleUpdated : PRB ℚ :=
  (updatePriorities examplePRB [0, 1, 2] [1/2, 3, 1]).get
    (by norm_num [updatePriorities, upAux, examplePRB])

/-- Fresh prioritized buffer as built by the constructor with `alpha = 1`;
the construction succeeds because `alpha` is non-negative. -/
noncomputable def examplePRB0 : PRB ℚ :=
  (mkPRB (0:ℚ) 4 2 1 1 (99/100)).get (by norm_num [mkPRB])

/-- Alignment invariant between the agent's prioritized 1-step memory and
its plain n-step memory: equal capacities, cursors and sizes, the 1-step
flag on the prioritized side, and slot-wise agreement of the starting
observation and action. -/
def AlignedInv {α : Type} (A : AgentMem α) : Prop :=
  A.memory.nStep = 1 ∧
  A.memory.maxSize = A.memoryN.maxSize ∧
  A.memory.ptr = A.memoryN.ptr ∧
  A.memory.size = A.memoryN.size ∧
  List.Forall₂ (fun x y => x.obs = y.obs ∧ x.act = y.act)
    A.memory.data A.memoryN.data

/-- The agent's two buffers as built by `DQNAgent.__init__` with capacity
4, batch size 2, `alpha = 1`, `gamma = 1/2` and `n_step = 3`. -/
noncomputable def c3A0 : AgentMem ℚ :=
  (agentInit (0:ℚ) 4 2 1 (1/2) 3).get (by rfl)

lemma getNStepInfo_singleton {α : Type} (t : Transition α) (γ : ℚ) :
    getNStepInfo [t] γ = some (t.rew, t.nextObs, t.done) := rfl

lemma getNStepInfo_cons {α : Type} (t s : Transition α) (rest : List (Transition α))
    (γ : ℚ) :
    getNStepInfo (t :: s :: rest) γ =
      (getNStepInfo (s :: rest) γ).map (fun acc => nStepFold γ acc t) := by
  obtain ⟨a, as, h⟩ := List.exists_cons_of_ne_nil
    (l := (s :: rest).reverse) (by simp)
  have h2 : (t :: s :: rest).reverse = a :: (as ++ [t]) := by
    rw [List.reverse_cons, h]; rfl
  unfold getNStepInfo
  rw [h, h2]
  simp [List.foldl_append]

lemma firstDoneIdx_cons {α : Type} (t : Transition α) (l : List (Transition α)) :
    firstDoneIdx (t :: l) = if t.done then 0 else firstDoneIdx l + 1 := by
  cases ht : t.done <;> simp [firstDoneIdx, List.findIdx_cons, ht]

lemma truncIdx_cons_done {α : Type} (t : Transition α) (l : List (Transition α))
    (ht : t.done = true) : truncIdx (t :: l) = 0 := by
  simp [truncIdx, firstDoneIdx_cons, ht]

lemma truncIdx_cons_of_not_done {α : Type} (t : Transition α) (l : List (Transition α))
    (ht : t.done = false) (hl : l ≠ []) : truncIdx (t :: l) = truncIdx l + 1 := by
  have hlen : 1 ≤ l.length := List.length_pos.mpr hl
  simp [truncIdx, firstDoneIdx_cons, ht]
  omega

lemma foldedRewardSpec_cons_done {α : Type} [Inhabited α] (t : Transition α)
    (l : List (Transition α)) (γ : ℚ) (ht : t.done = true) :
    foldedRewardSpec (t :: l) γ = t.rew := by
  simp [foldedRewardSpec, truncIdx_cons_done t l ht, Finset.sum_range_one]

lemma foldedRewardSpec_cons_of_not_done {α : Type} [Inhabited α] (t : Transition α)
    (l : List (Transition α)) (γ : ℚ) (ht : t.done = false) (hl : l ≠ []) :
    foldedRewardSpec (t :: l) γ = t.rew + γ * foldedRewardSpec l γ := by
  rw [foldedRewardSpec, truncIdx_cons_of_not_done t l ht hl, Finset.sum_range_succ']
  have hshift : ∑ k in Finset.range (truncIdx l + 1),
      γ ^ (k + 1) * ((t :: l).getD (k + 1) default).rew = γ * foldedRewardSpec l γ := by
    rw [foldedRewardSpec, Finset.mul_sum]
    refine Finset.sum_congr rfl (fun k _ => ?_)
    rw [List.getD_cons_succ]
    ring
  rw [hshift]
  simp [add_comm]

lemma bootstrapObsSpec_cons_done {α : Type} [Inhabited α] (t : Transition α)
    (l : List (Transition α)) (ht : t.done = true) :
    bootstrapObsSpec (t :: l) = t.nextObs := by
  simp [bootstrapObsSpec, truncIdx_cons_done t l ht]

lemma bootstrapObsSpec_cons_of_not_done {α : Type} [Inhabited α] (t : Transition α)
    (l : List (Transition α)) (ht : t.done = false) (hl : l ≠ []) :
    bootstrapObsSpec (t :: l) = bootstrapObsSpec l := by
  simp [bootstrapObsSpec, truncIdx_cons_of_not_done t l ht hl]

/-- Claim C2 (amended): for every nonempty window, `_get_n_step_info`
returns the reward folded as `R = sum of gamma^k * r_k` truncated at the
first `done = true` transition in chronological order (scanning forward
from the oldest entry; equivalently the final survivor of the code's
backward scan), with the bootstrap next-observation taken from that first
terminal transition if one exists, else from the newest transition, and
the folded done flag true iff any transition of the window is terminal. -/
theorem nstep_fold_forward_truncation {α : Type} [Inhabited α]
    (l : List (Transition α)) (γ : ℚ) (h : l ≠ []) :
    getNStepInfo l γ =
      some (foldedRewardSpec l γ, bootstrapObsSpec l,
        l.any (fun tr => tr.done)) := by
  induction l with
  | nil => exact absurd rfl h
  | cons t rest ih =>
    cases rest with
    | nil =>
      rw [getNStepInfo_singleton]
      simp [foldedRewardSpec, bootstrapObsSpec, truncIdx, firstDoneIdx_cons,
        Finset.sum_range_one]
    | cons s rest2 =>
      rw [getNStepInfo_cons, ih (by simp)]
      cases ht : t.done with
      | true =>
        simp [nStepFold, ht, foldedRewardSpec_cons_done t (s :: rest2) γ ht,
          bootstrapObsSpec_cons_done t (s :: rest2) ht]
      | false =>
        simp [nStepFold, ht,
          foldedRewardSpec_cons_of_not_done t (s :: rest2) γ ht (by simp),
          bootstrapObsSpec_cons_of_not_done t (s :: rest2) ht (by simp)]

/-- Claim C2 witness: on the spec's own example shape (rewards 1, 2, 4,
no terminal flag, gamma = 9/10) the folded reward is
`1 + 0.9 * 2 + 0.81 * 4 = 151/25` and the bootstrap comes from the newest
transition. -/
theorem nstep_fold_forward_truncation_witness :
    getNStepInfo plainWindow (9/10) = some (151/25, 40, false) :=
  (nstep_fold_forward_truncation plainWindow (9/10) (by simp [plainWindow])).trans
    (by norm_num [plainWindow, foldedRewardSpec, bootstrapObsSpec, truncIdx,
      firstDoneIdx, List.findIdx, List.findIdx.go, Finset.sum_range_succ])

/-- Claim C2 counterexample: on a window whose middle and newest entries
are both terminal (rewards 0, 5, 7, gamma = 1), the code truncates at the
earliest terminal transition — folded reward `0 + 5 = 5`, bootstrap
observation 11 — while the claim's backward scan from the newest entry
hits the newest terminal first and predicts folded reward
`0 + 5 + 7 = 12` with bootstrap observation 12. -/
theorem nstep_backward_scan_refuted :
    getNStepInfo twoDoneWindow 1 = some (5, 11, true) ∧
    backwardFoldSpec twoDoneWindow 1 = (12, 12, true) ∧
    ((5 : ℚ), (11 : ℚ), true) ≠ ((12 : ℚ), (12 : ℚ), true) := by
  refine ⟨?_, ?_, by norm_num⟩
  · norm_num [getNStepInfo, twoDoneWindow, nStepFold, List.foldl]
  · norm_num [backwardFoldSpec, backwardDoneIdx, twoDoneWindow,
      Finset.sum_range_succ, List.findIdx, List.findIdx.go]

/-- Claim C1 (code bug witness): at the boundary case where every
backed-up atom clamps to `v_min` (reward 0, done = 1, support atoms 0 and
1), the fractional index `b = 0` is integral, so `l = u = 0` and both
interpolation summands `next_dist * (u - b)` and `next_dist * (b - l)`
vanish: the projected row of `_compute_dqn_loss` sums to 0 even though
the input row sums to 1.  The claim (and the spec) state that the
projection conserves the row mass, all of it landing on the single index
`l = u`. -/
theorem projDist_drops_mass_when_b_integral :
    (∑ j in Finset.range 2, halfDist j) = 1 ∧
    (∑ i in Finset.range 2, projDist ⟨0, 1, 2⟩ 1 0 1 halfDist i) = 0 := by
  constructor
  · norm_num [halfDist, Finset.sum_range_succ]
  · norm_num [projDist, halfDist, lIdx, uIdx, bFrac, tZ, supportAtom, deltaZ,
      Finset.sum_range_succ]

/-- Sanity check that the projection does conserve mass away from the
degenerate case: with support atoms 0, 1, 2 and a non-integral backup
`t_z = 3/2`, the full input mass 1 is redistributed and the projected row
still sums to 1. -/
lemma projDist_conserves_interior_example :
    (∑ i in Finset.range 3, projDist ⟨0, 2, 3⟩ 1 (1/2) 0 atomOneDist i) = 1 := by
  have hc : ⌈(3:ℚ)/2⌉ = 2 := by rw [Int.ceil_eq_iff]; norm_num
  have hf : ⌊(3:ℚ)/2⌋ = 1 := by rw [Int.floor_eq_iff]; norm_num
  have hfr : Int.fract ((3:ℚ)/2) = 1/2 := by rw [Int.fract, hf]; norm_num
  norm_num [projDist, atomOneDist, lIdx, uIdx, bFrac, tZ, supportAtom, deltaZ,
    Finset.sum_range_succ, hc, hf, hfr]

lemma foldedRow_nil {α : Type} (γ : ℚ) : foldedRow ([] : List (Transition α)) γ = none := rfl

lemma foldedRow_some_shape {α : Type} {w : List (Transition α)} {γ : ℚ}
    {f : Transition α} (h : foldedRow w γ = some f) :
    ∃ h1 rest, w = h1 :: rest ∧ f.obs = h1.obs ∧ f.act = h1.act := by
  cases w with
  | nil => simp [foldedRow] at h
  | cons h1 rest =>
    refine ⟨h1, rest, rfl, ?_⟩
    rcases hg : getNStepInfo (h1 :: rest) γ with _ | ⟨r, no, dn⟩
    · unfold foldedRow at h
      rw [hg] at h
      simp at h
    · unfold foldedRow at h
      rw [hg] at h
      simp only [Option.some.injEq] at h
      subst h
      exact ⟨rfl, rfl⟩

lemma rbStore_none {α : Type} (s : RB α) (t : Transition α)
    (h : rbStoreWritten s t = none) :
    rbStore s t = ({ s with nStepBuffer := pushWindow s.nStepBuffer s.nStep t }, none) := by
  unfold rbStore
  cases hw : pushWindow s.nStepBuffer s.nStep t
  · rw [h]
  · rw [h]

lemma rbStore_some {α : Type} (s : RB α) (t : Transition α) (f : Transition α)
    (h : rbStoreWritten s t = some f) :
    rbStore s t =
      ({ s with
          nStepBuffer := pushWindow s.nStepBuffer s.nStep t
          data := s.data.set s.ptr f
          ptr := (s.ptr + 1) % s.maxSize
          size := min (s.size + 1) s.maxSize },
       (pushWindow s.nStepBuffer s.nStep t).head?) := by
  have hne : pushWindow s.nStepBuffer s.nStep t ≠ [] := by
    intro hnil
    rw [rbStoreWritten, hnil] at h
    simp [foldedRow_nil] at h
  obtain ⟨h1, rest, hw⟩ := List.exists_cons_of_ne_nil hne
  unfold rbStore
  rw [hw, h]
  rfl

lemma storeManyW_nil {α : Type} (s : RB α) : storeManyW s [] = (s, []) := rfl

lemma storeManyW_cons {α : Type} (s : RB α) (t : Transition α) (ts : List (Transition α)) :
    storeManyW s (t :: ts) =
      ((storeManyW (rbStore s t).1 ts).1,
       (rbStoreWritten s t).toList ++ (storeManyW (rbStore s t).1 ts).2) := rfl

lemma ringWrite_length {β : Type} (ws : List β) :
    ∀ (d : List β) (p : ℕ), (ringWrite d p ws).length = d.length := by
  induction ws with
  | nil => intro d p; rfl
  | cons w ws ih =>
    intro d p
    rw [ringWrite, ih]
    simp

lemma storeManyW_char {α : Type} (ts : List (Transition α)) :
    ∀ s : RB α, s.data.length = s.maxSize → s.ptr < s.maxSize → s.size ≤ s.maxSize →
      (storeManyW s ts).1.maxSize = s.maxSize ∧
      (storeManyW s ts).1.data = ringWrite s.data s.ptr (storeManyW s ts).2 ∧
      (storeManyW s ts).1.ptr = (s.ptr + (storeManyW s ts).2.length) % s.maxSize ∧
      (storeManyW s ts).1.size = min (s.size + (storeManyW s ts).2.length) s.maxSize := by
  induction ts with
  | nil =>
    intro s h1 h2 h3
    refine ⟨rfl, rfl, ?_, ?_⟩
    · simp [storeManyW, Nat.mod_eq_of_lt h2]
    · simp [storeManyW]
      omega
  | cons t ts ih =>
    intro s h1 h2 h3
    have hM : 0 < s.maxSize := lt_of_le_of_lt (Nat.zero_le _) h2
    cases h : rbStoreWritten s t with
    | none =>
      rw [storeManyW_cons, h]
      simp only [Option.toList_none, List.nil_append]
      have hc := rbStore_none s t h
      have hm : (rbStore s t).1.maxSize = s.maxSize := by rw [hc]
      have hdd : (rbStore s t).1.data = s.data := by rw [hc]
      have hpp : (rbStore s t).1.ptr = s.ptr := by rw [hc]
      have hzz : (rbStore s t).1.size = s.size := by rw [hc]
      obtain ⟨im, idata, iptr, isize⟩ := ih (rbStore s t).1
        (by rw [hdd, hm]; exact h1) (by rw [hpp, hm]; exact h2)
        (by rw [hzz, hm]; exact h3)
      exact ⟨by rw [im, hm], by rw [idata, hdd, hpp], by rw [iptr, hpp, hm],
        by rw [isize, hzz, hm]⟩
    | some f =>
      rw [storeManyW_cons, h]
      simp only [Option.toList_some, List.cons_append, List.nil_append,
        List.length_cons]
      have hc := rbStore_some s t f h
      have hm : (rbStore s t).1.maxSize = s.maxSize := by rw [hc]
      have hdd : (rbStore s t).1.data = s.data.set s.ptr f := by rw [hc]
      have hpp : (rbStore s t).1.ptr = (s.ptr + 1) % s.maxSize := by rw [hc]
      have hzz : (rbStore s t).1.size = min (s.size + 1) s.maxSize := by rw [hc]
      obtain ⟨im, idata, iptr, isize⟩ := ih (rbStore s t).1
        (by rw [hdd, hm]; simp [h1]) (by rw [hpp, hm]; exact Nat.mod_lt _ hM)
        (by rw [hzz, hm]; exact min_le_right _ _)
      refine ⟨by rw [im, hm], ?_, ?_, ?_⟩
      · rw [ringWrite, h1, idata, hdd, hpp]
      · rw [iptr, hpp, hm, Nat.mod_add_mod]
        congr 1
        omega
      · rw [isize, hzz, hm]
        omega

lemma lastHit_succ (p L j k : ℕ) :
    lastHit p L j (k + 1) =
      match lastHit ((p + 1) % L) L j k with
      | some i => some (i + 1)
      | none => if p = j then some 0 else none := rfl

lemma ringWrite_get? {β : Type} (ws : List β) :
    ∀ (d : List β) (p j : ℕ), p < d.length → j < d.length →
      (ringWrite d p ws).get? j =
        match lastHit p d.length j ws.length with
        | some i => ws.get? i
        | none => d.get? j := by
  induction ws with
  | nil => intro d p j hp hj; rfl
  | cons w ws ih =>
    intro d p j hp hj
    have hL0 : 0 < d.length := lt_of_le_of_lt (Nat.zero_le _) hp
    have hset : (d.set p w).length = d.length := by simp
    have h1 := ih (d.set p w) ((p + 1) % d.length) j
      (by rw [hset]; exact Nat.mod_lt _ hL0) (by rw [hset]; exact hj)
    rw [ringWrite, h1, hset, List.length_cons, lastHit_succ]
    cases hlh : lastHit ((p + 1) % d.length) d.length j ws.length with
    | some i => rfl
    | none =>
      by_cases hpj : p = j
      · subst hpj
        simp [List.getElem?_set_eq_of_lt w hj]
      · simp [hpj, List.getElem?_set_ne hpj]

lemma lastHit_eq_none_of_no_hit (L j : ℕ) :
    ∀ (k p : ℕ), p < L → (∀ i, i < k → (p + i) % L ≠ j) → lastHit p L j k = none := by
  intro k
  induction k with
  | zero => intro p _ _; rfl
  | succ k ih =>
    intro p hp hno
    have hL0 : 0 < L := lt_of_le_of_lt (Nat.zero_le _) hp
    have htail : lastHit ((p + 1) % L) L j k = none := by
      refine ih ((p + 1) % L) (Nat.mod_lt _ hL0) ?_
      intro i hi
      have h2 := hno (i + 1) (by omega)
      rw [Nat.mod_add_mod]
      rwa [show p + 1 + i = p + (i + 1) from by omega]
    rw [lastHit_succ, htail]
    have hpj : p ≠ j := by
      have h0 := hno 0 (by omega)
      rwa [Nat.add_zero, Nat.mod_eq_of_lt hp] at h0
    simp [hpj]

lemma lastHit_eq_some_of_last_hit (L j : ℕ) :
    ∀ (k i p : ℕ), p < L → i < k → (p + i) % L = j →
      (∀ i2, i < i2 → i2 < k → (p + i2) % L ≠ j) → lastHit p L j k = some i := by
  intro k
  induction k with
  | zero => intro i p _ hi _ _; omega
  | succ k ih =>
    intro i p hp hi hhit hlater
    have hL0 : 0 < L := lt_of_le_of_lt (Nat.zero_le _) hp
    cases i with
    | zero =>
      have hpj : p = j := by rwa [Nat.add_zero, Nat.mod_eq_of_lt hp] at hhit
      have htail : lastHit ((p + 1) % L) L j k = none := by
        refine lastHit_eq_none_of_no_hit L j k ((p + 1) % L) (Nat.mod_lt _ hL0) ?_
        intro i2 hi2
        have h2 := hlater (i2 + 1) (by omega) (by omega)
        rw [Nat.mod_add_mod]
        rwa [show p + 1 + i2 = p + (i2 + 1) from by omega]
      rw [lastHit_succ, htail]
      simp [hpj]
    | succ i0 =>
      have htail : lastHit ((p + 1) % L) L j k = some i0 := by
        refine ih i0 ((p + 1) % L) (Nat.mod_lt _ hL0) (by omega) ?_ ?_
        · rw [Nat.mod_add_mod]
          rwa [show p + 1 + i0 = p + (i0 + 1) from by omega]
        · intro i2 hi2a hi2b
          have h2 := hlater (i2 + 1) (by omega) (by omega)
          rw [Nat.mod_add_mod]
          rwa [show p + 1 + i2 = p + (i2 + 1) from by omega]
      rw [lastHit_succ, htail]

lemma lastHit_full (M j k : ℕ) (hM : 0 < M) (hj : j < M) (hk : M ≤ k) :
    lastHit 0 M j k = some (k - 1 - (k - 1 - j) % M) := by
  have hjk : j ≤ k - 1 := by omega
  have hr := Nat.mod_lt (k - 1 - j) hM
  have hrle := Nat.mod_le (k - 1 - j) M
  have hdm := Nat.div_add_mod (k - 1 - j) M
  set q := (k - 1 - j) / M with hq
  set r := (k - 1 - j) % M with hrdef
  obtain ⟨c, hc⟩ : ∃ c, c = M * q := ⟨M * q, rfl⟩
  rw [← hc] at hdm
  have hrep : k - 1 - r = j + c := by omega
  have hhit : (0 + (k - 1 - r)) % M = j := by
    rw [Nat.zero_add, hrep, hc, Nat.add_mul_mod_self_left, Nat.mod_eq_of_lt hj]
  refine lastHit_eq_some_of_last_hit M j k (k - 1 - r) 0 hM (by omega) hhit ?_
  intro i2 hgt hlt hbad
  rw [Nat.zero_add] at hbad
  have hdm2 := Nat.div_add_mod i2 M
  set q2 := i2 / M with hq2
  rw [hbad] at hdm2
  obtain ⟨c2, hc2⟩ : ∃ c2, c2 = M * q2 := ⟨M * q2, rfl⟩
  rw [← hc2] at hdm2
  have hqq : q < q2 := by
    by_contra hle
    push_neg at hle
    have h3 : M * q2 ≤ M * q := Nat.mul_le_mul_left M hle
    rw [← hc, ← hc2] at h3
    omega
  have h4 : M * (q + 1) ≤ M * q2 := Nat.mul_le_mul_left M hqq
  rw [Nat.mul_add, Nat.mul_one, ← hc, ← hc2] at h4
  omega

/-- Claim C5 (amended): writing through `ReplayBuffer.store` from a fresh
buffer, with `k` the number of insertions that produced a folded
transition, `len(buffer) = min(k, capacity)`; once `k = capacity + m`,
`len(buffer) = capacity` and slot `j` holds the
`(((capacity + m - 1 - j) mod capacity) + 1)`-th-from-last written folded
transition, i.e. the most recent insertion whose 0-based insertion index
is congruent to `j` modulo the capacity (ring overwrite). -/
theorem replay_ring_invariant {α : Type} (d : α) (M B n : ℕ) (γ : ℚ) (hM : 0 < M)
    (ts : List (Transition α)) :
    ((storeManyW (mkRB d M B n γ) ts).2.length ≤ M →
      (storeManyW (mkRB d M B n γ) ts).1.size =
        (storeManyW (mkRB d M B n γ) ts).2.length) ∧
    (∀ m j, (storeManyW (mkRB d M B n γ) ts).2.length = M + m → j < M →
      (storeManyW (mkRB d M B n γ) ts).1.size = M ∧
      (storeManyW (mkRB d M B n γ) ts).1.data.get? j =
        (storeManyW (mkRB d M B n γ) ts).2.get?
          (M + m - 1 - (M + m - 1 - j) % M)) := by
  obtain ⟨hm, hdata, hptr, hsize⟩ := storeManyW_char ts (mkRB d M B n γ)
    (by simp [mkRB]) (by simpa [mkRB] using hM) (by simp [mkRB])
  have hmax : (mkRB d M B n γ).maxSize = M := rfl
  have hsz0 : (mkRB d M B n γ).size = 0 := rfl
  have hd0 : (mkRB d M B n γ).data = List.replicate M ⟨d, 0, 0, d, false⟩ := rfl
  have hdlen : (mkRB d M B n γ).data.length = M := by rw [hd0]; simp
  constructor
  · intro hk
    rw [hsize, hsz0, hmax]
    omega
  · intro m j hk hj
    constructor
    · rw [hsize, hk, hsz0, hmax]
      omega
    · rw [hdata]
      have hget := ringWrite_get? (storeManyW (mkRB d M B n γ) ts).2
        (mkRB d M B n γ).data (mkRB d M B n γ).ptr j
        (by rw [hdlen]; simpa [mkRB] using hM) (by rw [hdlen]; exact hj)
      rw [hget, hdlen, hk]
      have hptr0 : (mkRB d M B n γ).ptr = 0 := rfl
      rw [hptr0, lastHit_full M j (M + m) hM hj (by omega)]

/-- Claim C5 witness: capacity 2, `n_step = 1`, three insertions with
rewards 1, 2, 4.  After the three insertions the size is 2 and slot 0
holds the `(((2 + 1 - 1 - 0) mod 2) + 1) = 1`-st-from-last written
transition (list index 2); after a single insertion the size equals the
number of produced transitions. -/
theorem replay_ring_invariant_witness :
    (storeManyW (mkRB (0:ℚ) 2 1 1 1) c5Raws).2.length = 2 + 1 ∧
    (storeManyW (mkRB (0:ℚ) 2 1 1 1) c5Raws).1.size = 2 ∧
    (storeManyW (mkRB (0:ℚ) 2 1 1 1) c5Raws).1.data.get? 0 =
      (storeManyW (mkRB (0:ℚ) 2 1 1 1) c5Raws).2.get?
        (2 + 1 - 1 - (2 + 1 - 1 - 0) % 2) ∧
    (storeManyW (mkRB (0:ℚ) 2 1 1 1) [⟨0, 0, 1, 1, false⟩]).1.size =
      (storeManyW (mkRB (0:ℚ) 2 1 1 1) [⟨0, 0, 1, 1, false⟩]).2.length := by
  refine ⟨rfl, ?_, ?_, ?_⟩
  · exact ((replay_ring_invariant (0:ℚ) 2 1 1 1 (by norm_num) c5Raws).2 1 0
      rfl (by norm_num)).1
  · exact ((replay_ring_invariant (0:ℚ) 2 1 1 1 (by norm_num) c5Raws).2 1 0
      rfl (by norm_num)).2
  · refine (replay_ring_invariant (0:ℚ) 2 1 1 1 (by norm_num)
      [⟨0, 0, 1, 1, false⟩]).1 ?_
    have h : (storeManyW (mkRB (0:ℚ) 2 1 1 1) [⟨0, 0, 1, 1, false⟩]).2.length = 1 := rfl
    omega

/-- Claim C5 counterexample: with capacity 2, `n_step = 1` and
`capacity + m = 3` insertions (rewards 1, 2, 4), slot 0 holds the newest
insertion (reward 4, the 1st-from-last), while the claim's
`(capacity + m - j)`-th-from-last formula predicts the 3rd-from-last
transition (reward 1, list index `3 - (2 + 1 - 0) = 0`). -/
theorem replay_ring_slot_formula_refuted :
    (storeManyW (mkRB (0:ℚ) 2 1 1 1) c5Raws).2.length = 2 + 1 ∧
    ((storeManyW (mkRB (0:ℚ) 2 1 1 1) c5Raws).1.data.get? 0).map
      (fun tr => tr.rew) = some 4 ∧
    ((storeManyW (mkRB (0:ℚ) 2 1 1 1) c5Raws).2.get? (2 + 1 - (2 + 1 - 0))).map
      (fun tr => tr.rew) = some 1 ∧
    (4 : ℚ) ≠ 1 :=
  ⟨rfl, rfl, rfl, by norm_num⟩

/-- Claim C9: `reset_noise` applies `f(x) = sign(x) * sqrt(abs(x))`
elementwise to the epsilon draws (the standard-normal sampling itself is
the RNG source, abstracted into the given raw vectors), sets the
weight-noise buffer to the outer product of the transformed draws and the
bias-noise buffer to the transformed output draw, leaving the learned
parameters untouched; and `forward` always returns
`x * (weight_mu + weight_sigma * weight_epsilon)^T +
(bias_mu + bias_sigma * bias_epsilon)` — the noise enters on every call,
there being no separate deterministic evaluation mode in the
definition. -/
theorem noisy_linear_noise_and_forward {nIn nOut : ℕ} (L : NoisyLinear nIn nOut)
    (rawIn : Fin nIn → ℝ) (rawOut : Fin nOut → ℝ) (x : Fin nIn → ℝ) :
    (∀ o i, (resetNoise L rawIn rawOut).weightEpsilon o i =
      specNoiseF (rawOut o) * specNoiseF (rawIn i)) ∧
    (∀ o, (resetNoise L rawIn rawOut).biasEpsilon o = specNoiseF (rawOut o)) ∧
    (resetNoise L rawIn rawOut).weightMu = L.weightMu ∧
    (resetNoise L rawIn rawOut).weightSigma = L.weightSigma ∧
    (resetNoise L rawIn rawOut).biasMu = L.biasMu ∧
    (resetNoise L rawIn rawOut).biasSigma = L.biasSigma ∧
    nlForward L x = specForward L x := by
  refine ⟨fun o i => rfl, fun o => rfl, rfl, rfl, rfl, rfl, ?_⟩
  funext o
  simp [nlForward, specForward, Matrix.mulVec, Matrix.dotProduct, Matrix.of_apply,
    Pi.add_apply]

lemma betaAt_le_one (N : ℕ) (b0 : ℚ) (hb : b0 ≤ 1) : ∀ t, betaAt N b0 t ≤ 1 := by
  intro t
  induction t with
  | zero => exact hb
  | succ t ih =>
    show betaStep N (t + 1) (betaAt N b0 t) ≤ 1
    unfold betaStep
    have hf0 : 0 ≤ min (((t + 1 : ℕ) : ℚ) / (N : ℚ)) 1 := by
      refine le_min (by positivity) (by norm_num)
    have hf1 : min (((t + 1 : ℕ) : ℚ) / (N : ℚ)) 1 ≤ 1 := min_le_right _ _
    nlinarith [mul_nonneg (sub_nonneg.mpr hf1) (sub_nonneg.mpr ih)]

lemma betaAt_mono (N : ℕ) (b0 : ℚ) (hb : b0 ≤ 1) (t : ℕ) :
    betaAt N b0 t ≤ betaAt N b0 (t + 1) := by
  have hle := betaAt_le_one N b0 hb t
  show betaAt N b0 t ≤ betaStep N (t + 1) (betaAt N b0 t)
  unfold betaStep
  have hf0 : 0 ≤ min (((t + 1 : ℕ) : ℚ) / (N : ℚ)) 1 := by
    refine le_min (by positivity) (by norm_num)
  nlinarith [mul_nonneg hf0 (sub_nonneg.mpr hle)]

lemma betaAt_final (N : ℕ) (b0 : ℚ) (hN : 1 ≤ N) : betaAt N b0 N = 1 := by
  cases N with
  | zero => omega
  | succ n =>
    show betaStep (n + 1) (n + 1) (betaAt (n + 1) b0 n) = 1
    unfold betaStep
    have hne : (((n + 1 : ℕ) : ℚ)) ≠ 0 := by
      exact_mod_cast Nat.succ_ne_zero n
    rw [div_self hne]
    simp

/-- Claim C8 (amended): during training beta is monotonically
non-decreasing and never exceeds 1.0 (the initial beta, 0.6 in the code,
is at most 1), and it reaches exactly 1.0 at the final frame; the
per-frame update is `beta += min(frame_idx/num_frames, 1) * (1 - beta)`,
which approaches 1.0 faster than the linear schedule rather than
following it. -/
theorem beta_annealing (N : ℕ) (b0 : ℚ) (hb : b0 ≤ 1) :
    (∀ t, betaAt N b0 t ≤ betaAt N b0 (t + 1)) ∧
    (∀ t, betaAt N b0 t ≤ 1) ∧
    (1 ≤ N → betaAt N b0 N = 1) :=
  ⟨betaAt_mono N b0 hb, betaAt_le_one N b0 hb, betaAt_final N b0⟩

/-- Claim C8 witness: `num_frames = 3`, initial beta 3/5: the update is
monotone at frame 2 and beta equals exactly 1 after frame 3. -/
theorem beta_annealing_witness :
    (3 : ℚ) / 5 ≤ 1 ∧ betaAt 3 (3 / 5) 1 ≤ betaAt 3 (3 / 5) 2 ∧
      betaAt 3 (3 / 5) 3 = 1 :=
  ⟨by norm_num, (beta_annealing 3 (3 / 5) (by norm_num)).1 1,
    (beta_annealing 3 (3 / 5) (by norm_num)).2.2 (by norm_num)⟩

/-- Claim C8 counterexample: with `num_frames = 3` and initial beta 3/5,
two frames of the code's recurrence give `beta = 41/45`, while the linear
schedule to 1.0 gives `3/5 + (2/3) * (2/5) = 39/45`: the annealing is not
linear. -/
theorem beta_linear_schedule_refuted :
    betaAt 3 (3 / 5) 2 = 41 / 45 ∧ linearBeta 3 (3 / 5) 2 = 39 / 45 ∧
      (41 : ℚ) / 45 ≠ 39 / 45 := by
  have h1 : min (((1 : ℕ) : ℚ) / ((3 : ℕ) : ℚ)) 1 = 1 / 3 := by
    rw [min_eq_left] <;> norm_num
  have h2 : min (((2 : ℕ) : ℚ) / ((3 : ℕ) : ℚ)) 1 = 2 / 3 := by
    rw [min_eq_left] <;> norm_num
  refine ⟨?_, ?_, by norm_num⟩
  · show betaStep 3 2 (betaStep 3 1 (3 / 5)) = 41 / 45
    unfold betaStep
    rw [h1, h2]
    norm_num
  · unfold linearBeta
    rw [h2]
    norm_num

lemma prbStore_none_char {α : Type} (s : PRB α) (t : Transition α) (rb1 : RB α)
    (h : rbStore s.toRB t = (rb1, none)) :
    prbStore s t = ({ s with toRB := rb1 }, none) := by
  unfold prbStore
  rw [h]

lemma prbStore_some_char {α : Type} (s : PRB α) (t : Transition α) (rb1 : RB α)
    (h1 : Transition α) (h : rbStore s.toRB t = (rb1, some h1)) :
    prbStore s t =
      ({ s with
          toRB := rb1
          sumTree := s.sumTree.set s.treePtr ((s.maxPriority : ℝ) ^ (s.alpha : ℝ))
          minTree := s.minTree.set s.treePtr
            (some ((s.maxPriority : ℝ) ^ (s.alpha : ℝ)))
          treePtr := (s.treePtr + 1) % s.toRB.maxSize }, some h1) := by
  unfold prbStore
  rw [h]

lemma upAux_some_char {α : Type} :
    ∀ (l : List (ℕ × ℚ)) (s s2 : PRB α), upAux s l = some s2 →
      s2.maxPriority = l.foldl (fun acc pr => max acc pr.2) s.maxPriority ∧
      s2.size = s.size ∧ s.maxPriority ≤ s2.maxPriority := by
  intro l
  induction l with
  | nil =>
    intro s s2 h
    simp only [upAux, Option.some.injEq] at h
    subst h
    exact ⟨rfl, rfl, le_refl _⟩
  | cons pr rest ih =>
    intro s s2 h
    obtain ⟨i0, p0⟩ := pr
    rw [upAux] at h
    by_cases hc : 0 < p0 ∧ i0 < s.size
    · rw [if_pos hc] at h
      obtain ⟨hmax, hsz, hmono⟩ := ih _ s2 h
      refine ⟨hmax, hsz, le_trans (le_max_left _ _) hmono⟩
    · rw [if_neg hc] at h
      exact absurd h (by simp)

lemma upAux_none_of_bad {α : Type} :
    ∀ (l : List (ℕ × ℚ)) (s : PRB α) (idx : ℕ) (p : ℚ),
      (idx, p) ∈ l → (p ≤ 0 ∨ s.size ≤ idx) → upAux s l = none := by
  intro l
  induction l with
  | nil =>
    intro s idx p hmem
    simp at hmem
  | cons pr rest ih =>
    intro s idx p hmem hbad
    obtain ⟨i0, p0⟩ := pr
    rw [upAux]
    by_cases hc : 0 < p0 ∧ i0 < s.size
    · rw [if_pos hc]
      rcases List.mem_cons.mp hmem with heq | hrest
      · exfalso
        obtain ⟨he1, he2⟩ := Prod.mk.injEq .. ▸ heq
        subst he1; subst he2
        rcases hbad with hb | hb
        · exact absurd hc.1 (not_lt.mpr hb)
        · exact absurd hc.2 (not_lt.mpr hb)
      · exact ih _ idx p hrest hbad
    · rw [if_neg hc]

lemma foldl_max_zip (m : ℚ) :
    ∀ (ids : List ℕ) (ps : List ℚ), ids.length = ps.length →
      (ids.zip ps).foldl (fun acc pr => max acc pr.2) m = ps.foldl max m := by
  intro ids
  induction ids generalizing m with
  | nil =>
    intro ps hlen
    cases ps with
    | nil => rfl
    | cons p ps => simp at hlen
  | cons i ids ih =>
    intro ps hlen
    cases ps with
    | nil => simp at hlen
    | cons p ps =>
      simp only [List.zip_cons_cons, List.foldl_cons]
      exact ih (max m p) ps (by simpa using hlen)

/-- Claim C6: `max_priority` starts at 1.0; every insertion that produces
a transition writes `max_priority ** alpha` into both trees at the tree
pointer while leaving `max_priority` itself unchanged; and a successful
`update_priorities(indices, priorities)` call sets `max_priority` to the
maximum of its previous value and the supplied priorities, so it never
decreases. -/
theorem max_priority_monotone {α : Type} :
    (∀ (d : α) (M B : ℕ) (a : ℚ) (n : ℕ) (γ : ℚ) (s : PRB α),
      mkPRB d M B a n γ = some s → s.maxPriority = 1) ∧
    (∀ (s : PRB α) (t h1 : Transition α) (s2 : PRB α),
      prbStore s t = (s2, some h1) →
      s2.sumTree = s.sumTree.set s.treePtr ((s.maxPriority : ℝ) ^ (s.alpha : ℝ)) ∧
      s2.minTree = s.minTree.set s.treePtr
        (some ((s.maxPriority : ℝ) ^ (s.alpha : ℝ))) ∧
      s2.maxPriority = s.maxPriority) ∧
    (∀ (s : PRB α) (ids : List ℕ) (ps : List ℚ) (s2 : PRB α),
      updatePriorities s ids ps = some s2 →
      s2.maxPriority = ps.foldl max s.maxPriority ∧
      s.maxPriority ≤ s2.maxPriority) := by
  refine ⟨?_, ?_, ?_⟩
  · intro d M B a n γ s h
    unfold mkPRB at h
    by_cases ha : 0 ≤ a
    · rw [if_pos ha] at h
      simp only [Option.some.injEq] at h
      subst h
      rfl
    · rw [if_neg ha] at h
      exact absurd h (by simp)
  · intro s t h1 s2 h
    rcases hr : rbStore s.toRB t with ⟨rb1, o⟩
    cases o with
    | none =>
      rw [prbStore_none_char s t rb1 hr] at h
      exact absurd (congrArg Prod.snd h) (by simp)
    | some h1' =>
      rw [prbStore_some_char s t rb1 h1' hr] at h
      have h2 := congrArg Prod.fst h
      simp only at h2
      subst h2
      exact ⟨rfl, rfl, rfl⟩
  · intro s ids ps s2 h
    unfold updatePriorities at h
    by_cases hlen : ids.length = ps.length
    · rw [if_pos hlen] at h
      obtain ⟨hmax, _, hmono⟩ := upAux_some_char _ s s2 h
      exact ⟨hmax.trans (foldl_max_zip s.maxPriority ids ps hlen), hmono⟩
    · rw [if_neg hlen] at h
      exact absurd h (by simp)

/-- Claim C6 witness: a fresh buffer starts at `max_priority = 1`, and
the call with priorities `[0.5, 3.0, 1.0]` on a buffer whose
`max_priority` is 1 leaves `max_priority = 3`. -/
theorem max_priority_monotone_witness :
    examplePRB0.maxPriority = 1 ∧ exampleUpdated.maxPriority = 3 := by
  constructor
  · exact (max_priority_monotone (α := ℚ)).1 0 4 2 1 1 (99/100) examplePRB0
      (Option.some_get _).symm
  · have hsome : updatePriorities examplePRB [0, 1, 2] [1/2, 3, 1] =
        some exampleUpdated := (Option.some_get _).symm
    have h := (max_priority_monotone (α := ℚ)).2.2 examplePRB [0, 1, 2]
      [1/2, 3, 1] exampleUpdated hsome
    rw [h.1]
    show [(1:ℚ)/2, 3, 1].foldl max examplePRB.maxPriority = 3
    have hm1 : examplePRB.maxPriority = 1 := rfl
    rw [hm1]
    simp only [List.foldl_cons, List.foldl_nil]
    rw [max_eq_left (by norm_num : (1:ℚ)/2 ≤ 1),
      max_eq_right (by norm_num : (1:ℚ) ≤ 3),
      max_eq_left (by norm_num : (1:ℚ) ≤ 3)]

/-- Claim C7 (amended): `sample_batch` fails immediately when fewer than
`batch_size` transitions are stored or when `beta <= 0`;
`update_priorities` fails immediately on mismatched batch lengths, on a
non-positive priority, or on an index at or beyond `len(buffer)`; and the
constructor accepts any non-negative `alpha` and fails exactly on
negative `alpha` (in particular `alpha = 0`, although non-positive, is
accepted). -/
theorem precondition_failures {α : Type} [Inhabited α] :
    (∀ (d : α) (M B : ℕ) (a : ℚ) (n : ℕ) (γ : ℚ),
      (mkPRB d M B a n γ).isSome ↔ 0 ≤ a) ∧
    (∀ (s : PRB α) (β : ℚ) (idxs : List ℕ),
      s.size < s.batchSize ∨ β ≤ 0 → sampleBatch s β idxs = none) ∧
    (∀ (s : PRB α) (ids : List ℕ) (ps : List ℚ),
      ids.length ≠ ps.length → updatePriorities s ids ps = none) ∧
    (∀ (s : PRB α) (ids : List ℕ) (ps : List ℚ) (idx : ℕ) (p : ℚ),
      (idx, p) ∈ ids.zip ps → p ≤ 0 ∨ s.size ≤ idx →
      updatePriorities s ids ps = none) := by
  refine ⟨?_, ?_, ?_, ?_⟩
  · intro d M B a n γ
    by_cases ha : 0 ≤ a <;> simp [mkPRB, ha]
  · intro s β idxs hbad
    unfold sampleBatch
    rw [if_neg]
    rintro ⟨hbs, hβ⟩
    rcases hbad with hb | hb
    · omega
    · linarith
  · intro s ids ps hlen
    simp [updatePriorities, hlen]
  · intro s ids ps idx p hmem hbad
    unfold updatePriorities
    by_cases hlen : ids.length = ps.length
    · rw [if_pos hlen]
      exact upAux_none_of_bad (ids.zip ps) s idx p hmem hbad
    · rw [if_neg hlen]

/-- Claim C7 counterexample: constructing a prioritized buffer with
`alpha = 0` — a non-positive value — succeeds, because the source only
asserts `alpha >= 0`; the claim says construction with non-positive
`alpha` fails immediately. -/
theorem alpha_zero_accepted :
    (mkPRB (0:ℚ) 4 2 0 1 (99/100)).isSome = true := by
  norm_num [mkPRB]

/-- Claim C7 witness: sampling with `beta = 0` on the example state
fails, a one-index call with priority 0 fails, a call with an
out-of-range index fails, and mismatched batch lengths fail. -/
theorem precondition_failures_witness :
    sampleBatch examplePRB 0 [0, 1] = none ∧
    updatePriorities examplePRB [0] [0] = none ∧
    updatePriorities examplePRB [3] [1] = none ∧
    updatePriorities examplePRB [0, 1] [1] = none := by
  refine ⟨?_, ?_, ?_, ?_⟩
  · exact (precondition_failures (α := ℚ)).2.1 examplePRB 0 [0, 1]
      (Or.inr (by norm_num))
  · exact (precondition_failures (α := ℚ)).2.2.2 examplePRB [0] [0] 0 0
      (by simp) (Or.inl (by norm_num))
  · refine (precondition_failures (α := ℚ)).2.2.2 examplePRB [3] [1] 3 1
      (by simp) (Or.inr ?_)
    show examplePRB.size ≤ 3
    norm_num [examplePRB]
  · exact (precondition_failures (α := ℚ)).2.2.1 examplePRB [0, 1] [1] (by simp)

lemma rbStoreWritten_some_window {α : Type} {s : RB α} {t : Transition α}
    {f : Transition α} (h : rbStoreWritten s t = some f) :
    ∃ h1 rest, pushWindow s.nStepBuffer s.nStep t = h1 :: rest ∧
      f.obs = h1.obs ∧ f.act = h1.act := by
  unfold rbStoreWritten at h
  split at h
  · exact absurd h (by simp)
  · obtain ⟨h1, rest, hw, ho, ha⟩ := foldedRow_some_shape h
    exact ⟨h1, rest, hw, ho, ha⟩

lemma rbStore_some' {α : Type} (s : RB α) (t f h1 : Transition α)
    (rest : List (Transition α)) (h : rbStoreWritten s t = some f)
    (hw : pushWindow s.nStepBuffer s.nStep t = h1 :: rest) :
    rbStore s t =
      ({ s with
          nStepBuffer := h1 :: rest
          data := s.data.set s.ptr f
          ptr := (s.ptr + 1) % s.maxSize
          size := min (s.size + 1) s.maxSize }, some h1) := by
  have h2 := rbStore_some s t f h
  rw [hw] at h2
  exact h2

lemma prbStore_step_char {α : Type} (s : PRB α) (t : Transition α) :
    ((prbStore s t).2 = none ∧ (prbStore s t).1.treePtr = s.treePtr ∧
      (prbStore s t).1.ptr = s.ptr ∧ (prbStore s t).1.maxSize = s.maxSize) ∨
    (∃ h1 f, (prbStore s t).2 = some h1 ∧
      (prbStore s t).1.treePtr = (s.treePtr + 1) % s.maxSize ∧
      (prbStore s t).1.ptr = (s.ptr + 1) % s.maxSize ∧
      (prbStore s t).1.maxSize = s.maxSize ∧
      (prbStore s t).1.sumTree =
        s.sumTree.set s.treePtr ((s.maxPriority : ℝ) ^ (s.alpha : ℝ)) ∧
      (prbStore s t).1.minTree =
        s.minTree.set s.treePtr (some ((s.maxPriority : ℝ) ^ (s.alpha : ℝ))) ∧
      (prbStore s t).1.data = s.data.set s.ptr f) := by
  cases hw : rbStoreWritten s.toRB t with
  | none =>
    have hr := rbStore_none s.toRB t hw
    rw [prbStore_none_char s t _ hr]
    exact Or.inl ⟨rfl, rfl, rfl, rfl⟩
  | some f =>
    obtain ⟨h1, rest, hwin, _, _⟩ := rbStoreWritten_some_window hw
    have hr := rbStore_some' s.toRB t f h1 rest hw hwin
    rw [prbStore_some_char s t _ h1 hr]
    exact Or.inr ⟨h1, f, rfl, rfl, rfl, rfl, rfl, rfl, rfl⟩

lemma prbStoreMany_ptr_inv {α : Type} :
    ∀ (ts : List (Transition α)) (s : PRB α), s.treePtr = s.ptr →
      (prbStoreMany s ts).treePtr = (prbStoreMany s ts).ptr := by
  intro ts
  induction ts with
  | nil => intro s h; exact h
  | cons t ts ih =>
    intro s h
    show (prbStoreMany (prbStore s t).1 ts).treePtr =
      (prbStoreMany (prbStore s t).1 ts).ptr
    refine ih (prbStore s t).1 ?_
    rcases prbStore_step_char s t with ⟨_, h1, h2, _⟩ |
      ⟨h1, f, _, h2, h3, _, _, _, _⟩
    · rw [h1, h2, h]
    · rw [h2, h3, h]

/-- Claim C10: in a `PrioritizedReplayBuffer` the tree pointer and the
ring write cursor stay equal: both start at 0; each `store` call either
advances neither (the n-step window is not yet full) or advances both by
one modulo the capacity, writing the priority leaves at the same slot the
transition row was written to; hence the equality holds in every state
reachable by storing. -/
theorem tree_ptr_ring_cursor_aligned {α : Type} :
    (∀ (d : α) (M B : ℕ) (a : ℚ) (n : ℕ) (γ : ℚ) (s : PRB α),
      mkPRB d M B a n γ = some s → s.treePtr = 0 ∧ s.ptr = 0) ∧
    (∀ (s : PRB α) (t : Transition α), s.treePtr = s.ptr →
      ((prbStore s t).2 = none → (prbStore s t).1.treePtr = s.treePtr ∧
        (prbStore s t).1.ptr = s.ptr) ∧
      (∀ h1, (prbStore s t).2 = some h1 →
        (prbStore s t).1.treePtr = (s.treePtr + 1) % s.maxSize ∧
        (prbStore s t).1.ptr = (s.ptr + 1) % s.maxSize ∧
        (prbStore s t).1.sumTree =
          s.sumTree.set s.ptr ((s.maxPriority : ℝ) ^ (s.alpha : ℝ)) ∧
        (prbStore s t).1.minTree =
          s.minTree.set s.ptr (some ((s.maxPriority : ℝ) ^ (s.alpha : ℝ))) ∧
        ∃ f, (prbStore s t).1.data = s.data.set s.ptr f) ∧
      (prbStore s t).1.treePtr = (prbStore s t).1.ptr) ∧
    (∀ (d : α) (M B : ℕ) (a : ℚ) (n : ℕ) (γ : ℚ) (s0 : PRB α),
      mkPRB d M B a n γ = some s0 →
      ∀ ts, (prbStoreMany s0 ts).treePtr = (prbStoreMany s0 ts).ptr) := by
  have hinit : ∀ (d : α) (M B : ℕ) (a : ℚ) (n : ℕ) (γ : ℚ) (s : PRB α),
      mkPRB d M B a n γ = some s → s.treePtr = 0 ∧ s.ptr = 0 := by
    intro d M B a n γ s h
    unfold mkPRB at h
    by_cases ha : 0 ≤ a
    · rw [if_pos ha] at h
      simp only [Option.some.injEq] at h
      subst h
      exact ⟨rfl, rfl⟩
    · rw [if_neg ha] at h
      exact absurd h (by simp)
  refine ⟨hinit, ?_, ?_⟩
  · intro s t he
    rcases prbStore_step_char s t with ⟨hn, h1, h2, _⟩ |
      ⟨h1, f, hsome, h2, h3, _, h5, h6, h7⟩
    · refine ⟨fun _ => ⟨h1, h2⟩, ?_, by rw [h1, h2, he]⟩
      intro h1' hsome
      rw [hn] at hsome
      exact absurd hsome (by simp)
    · refine ⟨?_, ?_, by rw [h2, h3, he]⟩
      · intro hnone
        rw [hsome] at hnone
        exact absurd hnone (by simp)
      · intro h1' _
        rw [he] at h5 h6
        exact ⟨h2, h3, h5, h6, f, h7⟩
  · intro d M B a n γ s0 h ts
    obtain ⟨ht, hp⟩ := hinit d M B a n γ s0 h
    exact prbStoreMany_ptr_inv ts s0 (by rw [ht, hp])

/-- Claim C10 witness: from a freshly constructed buffer, after
prioritized-storing three raw transitions the tree pointer still equals
the ring cursor. -/
theorem tree_ptr_ring_cursor_aligned_witness :
    (prbStoreMany examplePRB0 c5Raws).treePtr =
      (prbStoreMany examplePRB0 c5Raws).ptr :=
  (tree_ptr_ring_cursor_aligned (α := ℚ)).2.2 0 4 2 1 1 (99/100) examplePRB0
    (Option.some_get _).symm c5Raws

lemma optMin_fold_le :
    ∀ (l : List (Option ℝ)) (i : ℕ) (x : ℝ), l.get? i = some (some x) →
      ∃ mn, l.foldr optMin none = some mn ∧ mn ≤ x := by
  intro l
  induction l with
  | nil => intro i x h; simp at h
  | cons a rest ih =>
    intro i x h
    cases i with
    | zero =>
      rw [List.get?_cons_zero, Option.some.injEq] at h
      subst h
      rw [List.foldr_cons]
      cases hr : rest.foldr optMin none with
      | none => exact ⟨x, rfl, le_refl x⟩
      | some r => exact ⟨min x r, rfl, min_le_left x r⟩
    | succ i =>
      rw [List.get?_cons_succ] at h
      obtain ⟨mn, hmn, hle⟩ := ih i x h
      rw [List.foldr_cons, hmn]
      cases a with
      | none => exact ⟨mn, rfl, hle⟩
      | some a0 => exact ⟨min a0 mn, rfl, le_trans (min_le_right a0 mn) hle⟩

lemma optMin_fold_pos :
    ∀ (l : List (Option ℝ)), (∀ x ∈ l, ∀ q : ℝ, x = some q → 0 < q) →
      ∀ mn, l.foldr optMin none = some mn → 0 < mn := by
  intro l
  induction l with
  | nil => intro _ mn h; simp at h
  | cons a rest ih =>
    intro hpos mn h
    rw [List.foldr_cons] at h
    cases ha : a with
    | none =>
      rw [ha] at h
      have h2 : rest.foldr optMin none = some mn := by
        cases hr : rest.foldr optMin none <;> rw [hr] at h <;>
          simpa [optMin] using h
      exact ih (fun x hx => hpos x (List.mem_cons_of_mem _ hx)) mn h2
    | some a0 =>
      rw [ha] at h
      have hpa := hpos a (List.mem_cons_self _ _) a0 ha
      cases hr : rest.foldr optMin none with
      | none =>
        rw [hr] at h
        simp only [optMin, Option.some.injEq] at h
        rw [← h]
        exact hpa
      | some r =>
        rw [hr] at h
        simp only [optMin, Option.some.injEq] at h
        have hpr := ih (fun x hx => hpos x (List.mem_cons_of_mem _ hx)) r hr
        rw [← h]
        exact lt_min hpa hpr

/-- Claim C4, per-index core: with all stored priorities positive, the
weight computed by `_calculate_weight` for a sampled index equals
`((p_i / total) * N) ** (-beta)` divided by
`((p_min / total) * N) ** (-beta)` — the minimum taken over the whole
min-tree — and it lies in the interval `(0, 1]`. -/
lemma calculateWeight_spec {α : Type} (s : PRB α) (idx : ℕ) (β : ℚ) (mn : ℝ)
    (hβ : 0 < β) (hidx : idx < s.size)
    (hmn : treeMin s = some mn)
    (hstored : ∀ i, i < s.size → ∃ p : ℝ, 0 < p ∧ s.sumTree.get? i = some p ∧
      s.minTree.get? i = some (some p))
    (hminpos : ∀ x ∈ s.minTree, ∀ q : ℝ, x = some q → 0 < q)
    (hsumnn : ∀ x ∈ s.sumTree, 0 ≤ x) :
    calculateWeight s idx β =
      some ((((s.sumTree.getD idx 0 / treeSum s) * (s.size : ℝ)) ^ (-(β : ℝ))) /
        (((mn / treeSum s) * (s.size : ℝ)) ^ (-(β : ℝ)))) ∧
    ∀ w, calculateWeight s idx β = some w → 0 < w ∧ w ≤ 1 := by
  obtain ⟨p, hp, hsg, hmg⟩ := hstored idx hidx
  obtain ⟨mn2, hmn2, hmnle⟩ := optMin_fold_le s.minTree idx p hmg
  have hmn2' : mn2 = mn := by
    have := hmn2.symm.trans hmn
    simpa using this
  subst hmn2'
  have hmnpos : 0 < mn2 := optMin_fold_pos s.minTree hminpos mn2 hmn2
  have hgetD : s.sumTree.getD idx 0 = p := by
    rw [List.getD_eq_getElem?_getD, ← List.get?_eq_getElem?, hsg]
    rfl
  have hpmem : p ∈ s.sumTree := List.get?_mem hsg
  have hsum_pos : 0 < treeSum s :=
    lt_of_lt_of_le hp (List.single_le_sum hsumnn p hpmem)
  have hN : (0 : ℝ) < (s.size : ℝ) := by
    have : 0 < s.size := by omega
    exact_mod_cast this
  have hcw : calculateWeight s idx β =
      some ((((s.sumTree.getD idx 0 / treeSum s) * (s.size : ℝ)) ^ (-(β : ℝ))) /
        (((mn2 / treeSum s) * (s.size : ℝ)) ^ (-(β : ℝ)))) := by
    unfold calculateWeight
    rw [hmn]
  refine ⟨hcw, ?_⟩
  intro w hw
  rw [hcw, Option.some.injEq] at hw
  have hA : (0 : ℝ) < (s.sumTree.getD idx 0 / treeSum s) * (s.size : ℝ) := by
    rw [hgetD]
    exact mul_pos (div_pos hp hsum_pos) hN
  have hB : (0 : ℝ) < (mn2 / treeSum s) * (s.size : ℝ) :=
    mul_pos (div_pos hmnpos hsum_pos) hN
  have hBA : (mn2 / treeSum s) * (s.size : ℝ) ≤
      (s.sumTree.getD idx 0 / treeSum s) * (s.size : ℝ) := by
    rw [hgetD]
    exact mul_le_mul_of_nonneg_right
      ((div_le_div_right hsum_pos).mpr hmnle) hN.le
  have hβR : (0 : ℝ) ≤ (β : ℝ) := by
    have : (0 : ℚ) ≤ β := hβ.le
    exact_mod_cast this
  set A := (s.sumTree.getD idx 0 / treeSum s) * (s.size : ℝ) with hAdef
  set B := (mn2 / treeSum s) * (s.size : ℝ) with hBdef
  have hwval : w = (B / A) ^ (β : ℝ) := by
    rw [← hw, Real.rpow_neg hA.le, Real.rpow_neg hB.le, inv_div_inv,
      Real.div_rpow hB.le hA.le]
  rw [hwval]
  constructor
  · exact Real.rpow_pos_of_pos (div_pos hB hA) _
  · exact Real.rpow_le_one (div_nonneg hB.le hA.le) ((div_le_one hA).mpr hBA) hβR

lemma collectWeights_eval {α : Type} (s : PRB α) (β : ℚ) (mn : ℝ)
    (hmn : treeMin s = some mn) :
    ∀ idxs : List ℕ, collectWeights s β idxs =
      some (idxs.map (fun i =>
        (((s.sumTree.getD i 0 / treeSum s) * (s.size : ℝ)) ^ (-(β : ℝ))) /
          (((mn / treeSum s) * (s.size : ℝ)) ^ (-(β : ℝ))))) := by
  intro idxs
  induction idxs with
  | nil => rfl
  | cons i is ih =>
    have hcw : calculateWeight s i β =
        some ((((s.sumTree.getD i 0 / treeSum s) * (s.size : ℝ)) ^ (-(β : ℝ))) /
          (((mn / treeSum s) * (s.size : ℝ)) ^ (-(β : ℝ)))) := by
      unfold calculateWeight
      rw [hmn]
    rw [collectWeights, hcw, ih]
    rfl

/-- Claim C4: for every buffer state whose stored slots carry the same
positive priority in both trees (and whose remaining leaves are the tree
identities or at least non-negative/positive), and every `beta > 0`, the
batch returned by `sample_batch` carries one importance weight per
sampled index, equal to `((p_i / total_priority) * N) ** (-beta)` divided
by `((p_min / total_priority) * N) ** (-beta)` with `p_min` taken from
the min-tree over the whole buffer (not the sampled batch), and every
returned weight lies in `(0, 1]`. -/
theorem importance_weights_correct {α : Type} [Inhabited α] (s : PRB α) (β : ℚ)
    (indices : List ℕ) (mn : ℝ)
    (hβ : 0 < β) (hbs : s.batchSize ≤ s.size)
    (hmn : treeMin s = some mn)
    (hind : ∀ i ∈ indices, i < s.size)
    (hstored : ∀ i, i < s.size → ∃ p : ℝ, 0 < p ∧ s.sumTree.get? i = some p ∧
      s.minTree.get? i = some (some p))
    (hminpos : ∀ x ∈ s.minTree, ∀ q : ℝ, x = some q → 0 < q)
    (hsumnn : ∀ x ∈ s.sumTree, 0 ≤ x) :
    sampleBatch s β indices =
      some (indices.map (fun i => s.data.getD i default),
        indices.map (fun i =>
          (((s.sumTree.getD i 0 / treeSum s) * (s.size : ℝ)) ^ (-(β : ℝ))) /
            (((mn / treeSum s) * (s.size : ℝ)) ^ (-(β : ℝ)))),
        indices) ∧
    ∀ w ∈ indices.map (fun i =>
        (((s.sumTree.getD i 0 / treeSum s) * (s.size : ℝ)) ^ (-(β : ℝ))) /
          (((mn / treeSum s) * (s.size : ℝ)) ^ (-(β : ℝ)))),
      0 < w ∧ w ≤ 1 := by
  constructor
  · unfold sampleBatch
    rw [if_pos ⟨hbs, hβ⟩, collectWeights_eval s β mn hmn indices]
  · intro w hw
    obtain ⟨i, hi, hwi⟩ := List.mem_map.mp hw
    have hspec := calculateWeight_spec s i β mn hβ (hind i hi) hmn hstored
      hminpos hsumnn
    exact hspec.2 w (by rw [hspec.1, hwi])

/-- Claim C4 witness: on the concrete three-slot state with priorities
1, 2, 1 and `beta = 1`, sampling indices 0 and 2 returns exactly the rows,
the weights given by the claimed formula (with `p_min` from the whole
min-tree), and the indices. -/
theorem importance_weights_correct_witness :
    sampleBatch examplePRB 1 [0, 2] =
      some ([0, 2].map (fun i => examplePRB.data.getD i default),
        [0, 2].map (fun i =>
          (((examplePRB.sumTree.getD i 0 / treeSum examplePRB) *
              (examplePRB.size : ℝ)) ^ (-((1 : ℚ) : ℝ))) /
            ((((1 : ℝ) / treeSum examplePRB) *
              (examplePRB.size : ℝ)) ^ (-((1 : ℚ) : ℝ)))),
        [0, 2]) :=
  (importance_weights_correct examplePRB 1 [0, 2] 1 (by norm_num) (by decide)
    (by
      show List.foldr optMin none [some 1, some 2, some 1, none] = some 1
      simp only [List.foldr, optMin]
      rw [min_eq_right (by norm_num : (1:ℝ) ≤ 2), min_self])
    (by intro i hi; fin_cases hi <;> decide)
    (by
      intro i hi
      have h3 : examplePRB.size = 3 := rfl
      rw [h3] at hi
      interval_cases i
      · exact ⟨1, by norm_num, rfl, rfl⟩
      · exact ⟨2, by norm_num, rfl, rfl⟩
      · exact ⟨1, by norm_num, rfl, rfl⟩)
    (by
      intro x hx q hq
      have hx2 : x ∈ [some (1:ℝ), some 2, some 1, none] := hx
      fin_cases hx2 <;> simp_all <;> norm_num [← hq])
    (by
      intro x hx
      have hx2 : x ∈ [(1:ℝ), 2, 1, 0] := hx
      fin_cases hx2 <;> norm_num)).1

lemma pushWindow_one {α : Type} (w : List (Transition α)) (t : Transition α) :
    pushWindow w 1 t = [t] := by
  unfold pushWindow
  cases w with
  | nil => simp
  | cons a as =>
    rw [if_pos (by simp)]
    have hlen : (a :: as ++ [t]).length - 1 = (a :: as).length := by simp
    rw [hlen]
    exact List.drop_left _ _

lemma foldedRow_singleton {α : Type} (t : Transition α) (γ : ℚ) :
    foldedRow [t] γ = some t := by
  cases t
  rfl

lemma rbStoreWritten_one {α : Type} (s : RB α) (t : Transition α)
    (h1 : s.nStep = 1) : rbStoreWritten s t = some t := by
  unfold rbStoreWritten
  rw [h1, pushWindow_one]
  rw [if_neg (by simp)]
  exact foldedRow_singleton t s.gamma

lemma rbStore_one {α : Type} (s : RB α) (t : Transition α) (h1 : s.nStep = 1) :
    rbStore s t =
      ({ s with
          nStepBuffer := [t]
          data := s.data.set s.ptr t
          ptr := (s.ptr + 1) % s.maxSize
          size := min (s.size + 1) s.maxSize }, some t) := by
  have hw : pushWindow s.nStepBuffer s.nStep t = [t] := by
    rw [h1]
    exact pushWindow_one _ _
  exact rbStore_some' s t t t [] (rbStoreWritten_one s t h1) hw

lemma forall2_replicate {β β' : Type} {R : β → β' → Prop} {a : β} {b : β'}
    (h : R a b) : ∀ n, List.Forall₂ R (List.replicate n a) (List.replicate n b) := by
  intro n
  induction n with
  | zero => exact List.Forall₂.nil
  | succ n ih => exact List.Forall₂.cons h ih

lemma forall2_set {β β' : Type} {R : β → β' → Prop} :
    ∀ {l1 : List β} {l2 : List β'}, List.Forall₂ R l1 l2 →
      ∀ {a : β} {b : β'}, R a b → ∀ i,
        List.Forall₂ R (l1.set i a) (l2.set i b) := by
  intro l1 l2 hf
  induction hf with
  | nil => intro a b _ i; exact List.Forall₂.nil
  | cons hxy hrest ih =>
    intro a b hab i
    cases i with
    | zero => exact List.Forall₂.cons hab hrest
    | succ i => exact List.Forall₂.cons hxy (ih hab i)

lemma agentStoreStep_none {α : Type} (A : AgentMem α) (t : Transition α)
    (mN : RB α) (h : rbStore A.memoryN t = (mN, none)) :
    agentStoreStep A t = { A with memoryN := mN } := by
  unfold agentStoreStep
  rw [h]

lemma agentStoreStep_some {α : Type} (A : AgentMem α) (t : Transition α)
    (mN : RB α) (h1 : Transition α) (h : rbStore A.memoryN t = (mN, some h1)) :
    agentStoreStep A t = { memory := (prbStore A.memory h1).1, memoryN := mN } := by
  unfold agentStoreStep
  rw [h]

lemma agentStoreStep_preserves {α : Type} (A : AgentMem α) (t : Transition α)
    (h : AlignedInv A) : AlignedInv (agentStoreStep A t) := by
  obtain ⟨hn1, hms, hptr, hsz, hdata⟩ := h
  cases hw : rbStoreWritten A.memoryN t with
  | none =>
    have hr := rbStore_none A.memoryN t hw
    rw [agentStoreStep_none A t _ hr]
    exact ⟨hn1, hms, hptr, hsz, hdata⟩
  | some f =>
    obtain ⟨h1, rest, hwin, hfo, hfa⟩ := rbStoreWritten_some_window hw
    have hrN := rbStore_some' A.memoryN t f h1 rest hw hwin
    rw [agentStoreStep_some A t _ h1 hrN]
    have hr1 := rbStore_one A.memory.toRB h1 hn1
    rw [prbStore_some_char A.memory h1 _ h1 hr1]
    refine ⟨hn1, hms, ?_, ?_, ?_⟩
    · show (A.memory.ptr + 1) % A.memory.maxSize =
        (A.memoryN.ptr + 1) % A.memoryN.maxSize
      rw [hptr, hms]
    · show min (A.memory.size + 1) A.memory.maxSize =
        min (A.memoryN.size + 1) A.memoryN.maxSize
      rw [hsz, hms]
    · show List.Forall₂ (fun x y => x.obs = y.obs ∧ x.act = y.act)
        (A.memory.data.set A.memory.ptr h1) (A.memoryN.data.set A.memoryN.ptr f)
      rw [hptr]
      exact forall2_set hdata ⟨hfo.symm, hfa.symm⟩ A.memoryN.ptr

lemma agentInit_aligned {α : Type} (d : α) (M B : ℕ) (a γ : ℚ) (n : ℕ)
    (A0 : AgentMem α) (h : agentInit d M B a γ n = some A0) : AlignedInv A0 := by
  unfold agentInit at h
  rw [Option.map_eq_some'] at h
  obtain ⟨m, hm, hA⟩ := h
  subst hA
  unfold mkPRB at hm
  by_cases ha : 0 ≤ a
  · rw [if_pos ha] at hm
    simp only [Option.some.injEq] at hm
    subst hm
    exact ⟨rfl, rfl, rfl, rfl, forall2_replicate ⟨rfl, rfl⟩ M⟩
  · rw [if_neg ha] at hm
    exact absurd hm (by simp)

/-- Claim C3 (amended): when n-step learning is enabled, the transition
written into the prioritized buffer is the ONE-STEP transition returned
by the n-step buffer's `store` (the oldest raw transition of the
window), while the plain `ReplayBuffer` keeps the n-step-folded rows; the
two buffers advance their cursors and sizes in lockstep from
construction, so each index addresses the same underlying experience in
both (same starting observation and action). -/
theorem nstep_buffers_alignment {α : Type} (d : α) (M B : ℕ) (a γ : ℚ) (n : ℕ)
    (A0 : AgentMem α) (h0 : agentInit d M B a γ n = some A0)
    (raws : List (Transition α)) :
    ((storeSteps A0 raws).memory.ptr = (storeSteps A0 raws).memoryN.ptr ∧
     (storeSteps A0 raws).memory.size = (storeSteps A0 raws).memoryN.size ∧
     List.Forall₂ (fun x y => x.obs = y.obs ∧ x.act = y.act)
       (storeSteps A0 raws).memory.data (storeSteps A0 raws).memoryN.data) ∧
    (∀ (A : AgentMem α) (t : Transition α) (mN : RB α) (h1 : Transition α),
      A.memory.nStep = 1 → rbStore A.memoryN t = (mN, some h1) →
      (agentStoreStep A t).memory.data = A.memory.data.set A.memory.ptr h1 ∧
      (agentStoreStep A t).memoryN = mN) := by
  constructor
  · have hinv : ∀ (A : AgentMem α), AlignedInv A → AlignedInv (storeSteps A raws) := by
      induction raws with
      | nil => intro A hA; exact hA
      | cons t ts ih =>
        intro A hA
        exact ih _ (agentStoreStep_preserves A t hA)
    obtain ⟨_, _, hptr, hsz, hdata⟩ := hinv A0 (agentInit_aligned d M B a γ n A0 h0)
    exact ⟨hptr, hsz, hdata⟩
  · intro A t mN h1 hn1 hr
    rw [agentStoreStep_some A t mN h1 hr]
    refine ⟨?_, rfl⟩
    have hr1 := rbStore_one A.memory.toRB h1 hn1
    rw [prbStore_some_char A.memory h1 _ h1 hr1]

/-- Claim C3 counterexample: with `n_step = 3` and `gamma = 1/2`, after
the three raw transitions of `c5Raws` the prioritized buffer's slot 0
holds the raw one-step transition (bootstrap observation 1, the
`next_obs` of the first raw transition), while the n-step-folded
transition kept by the plain buffer bootstraps from the newest window
entry (observation 3): the claim's statement that the folded transition
is the one written into the prioritized buffer is false. -/
theorem prioritized_buffer_folding_refuted :
    ((storeSteps c3A0 c5Raws).memory.data.get? 0).map (fun tr => tr.nextObs) =
      some 1 ∧
    ((storeSteps c3A0 c5Raws).memoryN.data.get? 0).map (fun tr => tr.nextObs) =
      some 3 ∧
    (1 : ℚ) ≠ 3 :=
  ⟨rfl, rfl, by norm_num⟩

/-- Claim C3 witness: on the concrete agent state, after the three raw
transitions both buffers share the write cursor and the size. -/
theorem nstep_buffers_alignment_witness :
    (storeSteps c3A0 c5Raws).memory.ptr = (storeSteps c3A0 c5Raws).memoryN.ptr ∧
    (storeSteps c3A0 c5Raws).memory.size = (storeSteps c3A0 c5Raws).memoryN.size :=
  ⟨((nstep_buffers_alignment (0:ℚ) 4 2 1 (1/2) 3 c3A0
      (Option.some_get _).symm c5Raws).1).1,
   ((nstep_buffers_alignment (0:ℚ) 4 2 1 (1/2) 3 c3A0
      (Option.some_get _).symm c5Raws).1).2.1⟩
